import Mathlib

/-!
Verification development for `synthaser/results.py`: the overlap-resolution
and fragment-merging engine for conserved-domain search hits.

The Python module is shallowly embedded below.  Pure functions become Lean
functions; the process-wide mutable `DOMAINS` registry becomes an explicit
read-only association-list parameter threaded through every function that
reads it (no function below ever produces a modified registry, mirroring
the fact that the source only reads `DOMAINS`); Python exceptions
(`ValueError`, `KeyError`, `IndexError`) become `Except String` results.
Python `float` values (e-values, bitscores, the `coverage_pct` and
`tolerance_pct` parameters) are modelled as exact rationals; every concrete
number used in the theorems below is exactly representable so the modelled
comparisons agree with IEEE double comparisons at those inputs.
Integer sequence coordinates are modelled as `Int`.
-/

namespace Synthaser

/-- One row of the `DOMAINS` registry (`synthaser/domains.json`): the fields
of `DOMAINS[name]` read by `results.py` are `"type"`, `"length"` (canonical
PSSM length, a positive integer) and `"bitscore"` (threshold, a float). -/
structure RegEntry where
  type : String
  length : Nat
  bitscore : Rat
deriving DecidableEq, Inhabited

/-- The `DOMAINS` dictionary, as a read-only association list from domain
name to its registry entry. -/
def Registry := List (String × RegEntry)

/-- Dictionary lookup `DOMAINS[key]`; `none` models a Python `KeyError`. -/
def regFind : Registry → String → Option RegEntry
  | [], _ => none
  | (k, e) :: rest, key => if k = key then some e else regFind rest key

/-- A `Domain` instance (`synthaser/models.py`).  Field `end_` is the source
attribute `end` and `part` is the source attribute `partial`; both are
renamed because they are reserved words in Lean. -/
structure Domain where
  pssm : String
  type : String
  domain : String
  start : Int
  end_ : Int
  evalue : Rat
  bitscore : Rat
  part : String
  accession : String
  superfamily : String
deriving DecidableEq, Inhabited

/-- Modelled from the spec: `Domain.__len__` lives in `synthaser/models.py`,
which is not included under `src/`; spec section 3 defines the derived
attribute `length = end - start`, which is what `len(one)` and `len(two)`
compute in `is_fragmented_domain`. -/
def Domain.length (d : Domain) : Int := d.end_ - d.start

/-- `is_fragmented_domain(one, two, coverage_pct, tolerance_pct)`
(results.py lines 172-209).  The type mismatch check raises `ValueError`
before anything else is evaluated; a registry miss on `one.domain` raises
`KeyError`.  The returned boolean is the source's four-clause conjunction,
with Python's chained comparison written as two clauses. -/
def is_fragmented_domain (reg : Registry) (one two : Domain)
    (coverage_pct tolerance_pct : Rat) : Except String Bool :=
  if one.type ≠ two.type then
    .error ("ValueError: Expected Domain instances of same type")
  else
    match regFind reg one.domain with
    | none => .error ("KeyError: " ++ one.domain)
    | some entry =>
      let pssm_length : Rat := entry.length
      let coverage := pssm_length * coverage_pct
      let tolerance := pssm_length * tolerance_pct
      let one_length : Rat := (one.length : Rat)
      let two_length : Rat := (two.length : Rat)
      .ok (decide (one_length < coverage)
        && decide (two_length < coverage)
        && decide (pssm_length - tolerance ≤ ((two.end_ : Rat) - (one.start : Rat)))
        && decide (((two.end_ : Rat) - (one.start : Rat)) ≤ pssm_length + tolerance)
        && decide (one_length + two_length > coverage))

/-- Stable insertion of `x` into an already sorted list whose elements all
come from positions after `x` in the original order: `x` is placed before
the first element `y` that does not strictly precede it under `lt`.  This
is exactly CPython's stable `sorted`: an element keeps its original
position relative to elements with equal keys, and `reverse=True` reverses
only the comparison, not the tie order. -/
def insertBy (lt : Domain → Domain → Bool) (x : Domain) : List Domain → List Domain
  | [] => [x]
  | y :: ys => if lt y x then y :: insertBy lt x ys else x :: y :: ys

/-- Stable sort used to model every `sorted(...)` call in `results.py`.
`lt a b` reads: `a`'s key strictly precedes `b`'s key. -/
def sortBy (lt : Domain → Domain → Bool) : List Domain → List Domain
  | [] => []
  | x :: xs => insertBy lt x (sortBy lt xs)

/-- The normalized bitscore key `d.bitscore / DOMAINS[d.domain]["bitscore"]`
used by the `"bitscore"` metric; the registry miss (Python `KeyError`,
raised while `sorted` pre-computes the decorated keys) is the `Except`
error case. -/
def normBitscore (reg : Registry) (d : Domain) : Except String Rat :=
  match regFind reg d.domain with
  | some e => .ok (d.bitscore / e.bitscore)
  | none => .error ("KeyError: " ++ d.domain)

/-- Total version of the normalized bitscore key, used for the comparison
after the per-element key computations of `normBitscore` are known to
succeed (the `none` branch is then unreachable). -/
def bitKey (reg : Registry) (d : Domain) : Rat :=
  match regFind reg d.domain with
  | some e => d.bitscore / e.bitscore
  | none => 0

/-- `sorted(group, ...)[0]`: indexing an empty list raises `IndexError`. -/
def headOrErr : List Domain → Except String Domain
  | [] => .error ("IndexError: list index out of range")
  | d :: _ => .ok d

/-- The list comprehension
`[choose_representative_domain(group, by) for group in ...]`: left to
right, the first raised exception propagates. -/
def mapExcept (f : α → Except String β) : List α → Except String (List β)
  | [] => .ok []
  | a :: as_ =>
    match f a with
    | .error e => .error e
    | .ok b =>
      match mapExcept f as_ with
      | .error e => .error e
      | .ok bs => .ok (b :: bs)

/-- `choose_representative_domain(group, by)` (results.py lines 251-286).
The metric table `key_functions` maps `"bitscore"` to the normalized score,
descending; `"evalue"` to the e-value, ascending; `"length"` to
`d.end - d.start`, descending.  A metric outside the table raises
`ValueError` before the group is touched.  Sorting is stable, so the first
element of the sorted list is the earliest hit attaining the best key. -/
def choose_representative_domain (reg : Registry) (group : List Domain)
    (by_ : String) : Except String Domain :=
  if by_ = "bitscore" then
    match mapExcept (normBitscore reg) group with
    | .error e => .error e
    | .ok _ => headOrErr (sortBy (fun y x => decide (bitKey reg x < bitKey reg y)) group)
  else if by_ = "evalue" then
    headOrErr (sortBy (fun y x => decide (y.evalue < x.evalue)) group)
  else if by_ = "length" then
    headOrErr (sortBy (fun y x => decide (x.end_ - x.start < y.end_ - y.start)) group)
  else .error ("ValueError: expected bitscore, evalue or length")

/-- The generator body of `group_overlapping_hits` (results.py lines
306-320): `group` is the current run, `border` its running upper bound.
A hit with `start + 10 ≤ border` joins the run and raises the bound to
`max border end`; otherwise the run is yielded and a new one starts. -/
def groupGo : List Domain → List Domain → Int → List (List Domain)
  | [], group, _ => [group]
  | d :: rest, group, border =>
    if d.start + 10 ≤ border then groupGo rest (group ++ [d]) (max border d.end_)
    else group :: groupGo rest [d] d.end_

/-- `group_overlapping_hits(domains)` (results.py lines 289-320): sort by
`start` (stable), return no group for empty input, otherwise seed the first
group with the first hit and its `end` as the bound. -/
def group_overlapping_hits (ds : List Domain) : List (List Domain) :=
  match sortBy (fun y x => decide (y.start < x.start)) ds with
  | [] => []
  | first :: rest => groupGo rest [first] first.end_

/-- The `while i < total` loop of `filter_domains` (results.py lines
233-248), with `total` frozen at entry exactly as in the source (it is not
decremented when an element is deleted).  One loop iteration either breaks
(`i + 1 == total`), raises `ValueError` when the slice
`domains[i - 1 : i + 1]` unpacks to fewer than two values, merges
(`previous.end = current.end; del domains[i]`, without advancing `i`), or
advances `i` by one.  The loop is modelled with an explicit `fuel`
argument; `(total - i) + length domains` strictly decreases on every
iteration, and `scanGo_fuel_succ` below shows the result is independent of
the fuel whenever the fuel is at least that measure, so exhausted fuel
(which returns the list as-is) is unreachable from `filter_domains`. -/
def scanGo (reg : Registry) (cov tol : Rat) :
    Nat → Nat → Nat → List Domain → Except String (List Domain)
  | 0, _, _, ds => .ok ds
  | fuel + 1, total, i, ds =>
    if i < total then
      if i + 1 = total then .ok ds
      else
        match (ds.drop (i - 1)).take 2 with
        | [p, c] =>
          if p.type = c.type then
            match is_fragmented_domain reg p c cov tol with
            | .error e => .error e
            | .ok true =>
              scanGo reg cov tol fuel total i
                ((ds.set (i - 1) { p with end_ := c.end_ }).eraseIdx i)
            | .ok false => scanGo reg cov tol fuel total (i + 1) ds
          else scanGo reg cov tol fuel total (i + 1) ds
        | _ => .error ("ValueError: not enough values to unpack")
    else .ok ds

/-- `filter_domains(domains, by, coverage_pct, tolerance_pct)` (results.py
lines 212-248): pick one representative per overlap group, then run the
fragment-merge scan starting at `i = 1` with `total` frozen at the
representative count.  The fuel `2 * total + 1` strictly exceeds the loop
measure `(total - 1) + total` at entry, so the scan can never exhaust it. -/
def filter_domains (reg : Registry) (ds : List Domain) (by_ : String)
    (cov tol : Rat) : Except String (List Domain) :=
  match mapExcept (fun g => choose_representative_domain reg g by_)
      (group_overlapping_hits ds) with
  | .error e => .error e
  | .ok reps => scanGo reg cov tol (2 * reps.length + 1) reps.length 1 reps

/-- `filter_results(results, **kwargs)` (results.py lines 153-169): apply
`filter_domains` to every query in insertion order, always writing the
(possibly empty) outcome back under the same key.  The `LOG.error` call on
an empty outcome is side-effect-free for the result value and is dropped
from the model. -/
def filter_results (reg : Registry) (by_ : String) (cov tol : Rat) :
    List (String × List Domain) → Except String (List (String × List Domain))
  | [] => .ok []
  | (name, ds) :: rest =>
    match filter_domains reg ds by_ cov tol with
    | .error e => .error e
    | .ok ds2 =>
      match filter_results reg by_ cov tol rest with
      | .error e => .error e
      | .ok rest2 => .ok ((name, ds2) :: rest2)

end Synthaser

namespace Synthaser

theorem insertBy_perm (lt : Domain → Domain → Bool) (x : Domain) :
    ∀ l, (insertBy lt x l).Perm (x :: l)
  | [] => .refl _
  | y :: ys => by
    simp only [insertBy]
    by_cases h : lt y x = true
    · rw [if_pos h]
      exact ((insertBy_perm lt x ys).cons y).trans (List.Perm.swap x y ys)
    · rw [if_neg h]

theorem sortBy_perm (lt : Domain → Domain → Bool) : ∀ l, (sortBy lt l).Perm l
  | [] => .refl _
  | x :: xs => (insertBy_perm lt x (sortBy lt xs)).trans ((sortBy_perm lt xs).cons x)

theorem mem_sortBy {lt : Domain → Domain → Bool} {l : List Domain} {a : Domain} :
    a ∈ sortBy lt l ↔ a ∈ l :=
  (sortBy_perm lt l).mem_iff

theorem sortBy_ne_nil {lt : Domain → Domain → Bool} {l : List Domain} (h : l ≠ []) :
    sortBy lt l ≠ [] := by
  intro hnil
  have := (sortBy_perm lt l).length_eq
  rw [hnil] at this
  exact h (List.eq_nil_of_length_eq_zero this.symm)

/-- One step of the tie-stable best-element fold: against the best `b` of
the later elements, the earlier element `x` survives unless `b` strictly
precedes it under `lt`. -/
def bestStep (lt : Domain → Domain → Bool) (x : Domain) : Option Domain → Domain
  | none => x
  | some b => if lt b x then b else x

/-- The element `sorted(...)[0]` will return: fold the list keeping the
current best, preferring the earlier element on ties (`lt b x` keeps the
previously found best `b` only when it strictly precedes `x`). -/
def bestOf (lt : Domain → Domain → Bool) : List Domain → Option Domain
  | [] => none
  | x :: xs => some (bestStep lt x (bestOf lt xs))

theorem sortBy_head?_eq_bestOf (lt : Domain → Domain → Bool) :
    ∀ l, (sortBy lt l).head? = bestOf lt l
  | [] => rfl
  | x :: xs => by
    have IH := sortBy_head?_eq_bestOf lt xs
    rw [show sortBy lt (x :: xs) = insertBy lt x (sortBy lt xs) from rfl]
    rw [show bestOf lt (x :: xs) = some (bestStep lt x (bestOf lt xs)) from rfl]
    rw [← IH]
    cases hcase : sortBy lt xs with
    | nil => simp [insertBy, bestStep]
    | cons y ys =>
      by_cases h : lt y x = true
      · simp [insertBy, bestStep, h]
      · simp [insertBy, bestStep, h]

/-- The earliest minimum of a cluster under key `k`: `r` occurs at a
position every strictly earlier position strictly exceeds, and no position
has a smaller key. -/
def isFirstMin {α : Type} [LinearOrder α] (k : Domain → α) (g : List Domain)
    (r : Domain) : Prop :=
  ∃ i, ∃ hi : i < g.length, g.get ⟨i, hi⟩ = r ∧
    (∀ j, ∀ hj : j < g.length, j < i → k r < k (g.get ⟨j, hj⟩)) ∧
    ∀ d ∈ g, k r ≤ k d

/-- The earliest maximum of a cluster under key `k`. -/
def isFirstMax {α : Type} [LinearOrder α] (k : Domain → α) (g : List Domain)
    (r : Domain) : Prop :=
  ∃ i, ∃ hi : i < g.length, g.get ⟨i, hi⟩ = r ∧
    (∀ j, ∀ hj : j < g.length, j < i → k (g.get ⟨j, hj⟩) < k r) ∧
    ∀ d ∈ g, k d ≤ k r

theorem bestOf_spec_asc {α : Type} [LinearOrder α] (k : Domain → α) :
    ∀ (g : List Domain) (r : Domain),
      bestOf (fun y x => decide (k y < k x)) g = some r → isFirstMin k g r := by
  intro g
  induction g with
  | nil => intro r h; exact absurd h (by simp [bestOf])
  | cons x xs IH =>
    intro r h
    cases xs with
    | nil =>
      simp only [bestOf] at h
      obtain rfl : x = r := by injection h
      exact ⟨0, by simp, rfl, by omega, by simp⟩
    | cons y ys =>
      cases hb : bestOf (fun y x => decide (k y < k x)) (y :: ys) with
      | none => simp [bestOf] at hb
      | some b =>
        obtain ⟨i, hi, hget, hpre, hmin⟩ := IH b hb
        rw [show bestOf (fun y x => decide (k y < k x)) (x :: y :: ys)
              = some (bestStep (fun y x => decide (k y < k x)) x
                  (bestOf (fun y x => decide (k y < k x)) (y :: ys))) from rfl,
            hb] at h
        simp only [bestStep] at h
        by_cases hlt : k b < k x
        · rw [if_pos (by simpa using hlt)] at h
          obtain rfl : b = r := by injection h
          refine ⟨i + 1, by simpa using Nat.succ_lt_succ hi, by simpa using hget, ?_, ?_⟩
          · intro j hj hji
            cases j with
            | zero => simpa using hlt
            | succ j' =>
              have hj' : j' < (y :: ys).length := by simpa using Nat.lt_of_succ_lt_succ hj
              have := hpre j' hj' (Nat.lt_of_succ_lt_succ hji)
              simpa using this
          · intro d hd
            rcases List.mem_cons.mp hd with rfl | hd'
            · exact le_of_lt hlt
            · exact hmin d hd'
        · rw [if_neg (by simpa using hlt)] at h
          obtain rfl : x = r := by injection h
          refine ⟨0, by simp, rfl, by omega, ?_⟩
          intro d hd
          rcases List.mem_cons.mp hd with rfl | hd'
          · exact le_rfl
          · exact le_trans (not_lt.mp hlt) (hmin d hd')

theorem bestOf_spec_desc {α : Type} [LinearOrder α] (k : Domain → α) :
    ∀ (g : List Domain) (r : Domain),
      bestOf (fun y x => decide (k x < k y)) g = some r → isFirstMax k g r := by
  intro g
  induction g with
  | nil => intro r h; exact absurd h (by simp [bestOf])
  | cons x xs IH =>
    intro r h
    cases xs with
    | nil =>
      simp only [bestOf] at h
      obtain rfl : x = r := by injection h
      exact ⟨0, by simp, rfl, by omega, by simp⟩
    | cons y ys =>
      cases hb : bestOf (fun y x => decide (k x < k y)) (y :: ys) with
      | none => simp [bestOf] at hb
      | some b =>
        obtain ⟨i, hi, hget, hpre, hmax⟩ := IH b hb
        rw [show bestOf (fun y x => decide (k x < k y)) (x :: y :: ys)
              = some (bestStep (fun y x => decide (k x < k y)) x
                  (bestOf (fun y x => decide (k x < k y)) (y :: ys))) from rfl,
            hb] at h
        simp only [bestStep] at h
        by_cases hlt : k x < k b
        · rw [if_pos (by simpa using hlt)] at h
          obtain rfl : b = r := by injection h
          refine ⟨i + 1, by simpa using Nat.succ_lt_succ hi, by simpa using hget, ?_, ?_⟩
          · intro j hj hji
            cases j with
            | zero => simpa using hlt
            | succ j' =>
              have hj' : j' < (y :: ys).length := by simpa using Nat.lt_of_succ_lt_succ hj
              have := hpre j' hj' (Nat.lt_of_succ_lt_succ hji)
              simpa using this
          · intro d hd
            rcases List.mem_cons.mp hd with rfl | hd'
            · exact le_of_lt hlt
            · exact hmax d hd'
        · rw [if_neg (by simpa using hlt)] at h
          obtain rfl : x = r := by injection h
          refine ⟨0, by simp, rfl, by omega, ?_⟩
          intro d hd
          rcases List.mem_cons.mp hd with rfl | hd'
          · exact le_rfl
          · exact le_trans (hmax d hd') (not_lt.mp hlt)

end Synthaser

namespace Synthaser

theorem mem_insertBy {lt : Domain → Domain → Bool} {l : List Domain} {a x : Domain} :
    a ∈ insertBy lt x l ↔ a = x ∨ a ∈ l := by
  rw [(insertBy_perm lt x l).mem_iff, List.mem_cons]

theorem pairwise_start_insertBy {x : Domain} {l : List Domain}
    (h : l.Pairwise (fun a b => a.start ≤ b.start)) :
    (insertBy (fun y x => decide (y.start < x.start)) x l).Pairwise
      (fun a b => a.start ≤ b.start) := by
  induction l with
  | nil => simp [insertBy]
  | cons y ys IH =>
    rw [List.pairwise_cons] at h
    simp only [insertBy]
    by_cases hyx : y.start < x.start
    · rw [if_pos (by simpa using hyx)]
      rw [List.pairwise_cons]
      refine ⟨?_, IH h.2⟩
      intro z hz
      rcases mem_insertBy.mp hz with rfl | hz'
      · exact le_of_lt hyx
      · exact h.1 z hz'
    · rw [if_neg (by simpa using hyx)]
      rw [List.pairwise_cons]
      refine ⟨?_, List.pairwise_cons.mpr h⟩
      intro z hz
      rcases List.mem_cons.mp hz with rfl | hz'
      · exact not_lt.mp hyx
      · exact le_trans (not_lt.mp hyx) (h.1 z hz')

theorem pairwise_start_sortBy (l : List Domain) :
    (sortBy (fun y x => decide (y.start < x.start)) l).Pairwise
      (fun a b => a.start ≤ b.start) := by
  induction l with
  | nil => simp [sortBy]
  | cons x xs IH => exact pairwise_start_insertBy IH

theorem groupGo_join :
    ∀ (rest group : List Domain) (border : Int),
      (groupGo rest group border).flatten = group ++ rest := by
  intro rest
  induction rest with
  | nil => intro group border; simp [groupGo]
  | cons d rest IH =>
    intro group border
    simp only [groupGo]
    by_cases h : d.start + 10 ≤ border
    · rw [if_pos h, IH]
      simp
    · rw [if_neg h]
      simp only [List.flatten_cons, IH]
      simp

theorem groupGo_ne_nil :
    ∀ (rest group : List Domain) (border : Int), group ≠ [] →
      ∀ g ∈ groupGo rest group border, g ≠ [] := by
  intro rest
  induction rest with
  | nil =>
    intro group border hg g hmem
    simp only [groupGo, List.mem_singleton] at hmem
    exact hmem ▸ hg
  | cons d rest IH =>
    intro group border hg g hmem
    simp only [groupGo] at hmem
    by_cases h : d.start + 10 ≤ border
    · rw [if_pos h] at hmem
      exact IH _ _ (by simp) g hmem
    · rw [if_neg h] at hmem
      rcases List.mem_cons.mp hmem with rfl | hmem'
      · exact hg
      · exact IH _ _ (by simp) g hmem'

theorem groupGo_shape :
    ∀ (rest : List Domain) (h : Domain) (t : List Domain) (border : Int),
      ∃ t2 gs, groupGo rest (h :: t) border = (h :: t2) :: gs := by
  intro rest
  induction rest with
  | nil => intro h t border; exact ⟨t, [], rfl⟩
  | cons d rest IH =>
    intro h t border
    simp only [groupGo]
    by_cases hc : d.start + 10 ≤ border
    · rw [if_pos hc]
      simpa using IH h (t ++ [d]) (max border d.end_)
    · rw [if_neg hc]
      exact ⟨t, groupGo rest [d] d.end_, rfl⟩

theorem groupGo_chain :
    ∀ (rest : List Domain) (h : Domain) (t : List Domain) (border : Int),
      (∀ d ∈ rest, h.start ≤ d.start) →
      rest.Pairwise (fun a b => a.start ≤ b.start) →
      ((groupGo rest (h :: t) border).map (fun g => g.headI.start)).Chain' (· ≤ ·) := by
  intro rest
  induction rest with
  | nil => intro h t border _ _; simp [groupGo]
  | cons d rest IH =>
    intro h t border hall hp
    rw [List.pairwise_cons] at hp
    have hhd : h.start ≤ d.start := hall d (List.mem_cons_self d rest)
    simp only [groupGo]
    by_cases hc : d.start + 10 ≤ border
    · rw [if_pos hc]
      have : (h :: t) ++ [d] = h :: (t ++ [d]) := rfl
      rw [this]
      exact IH h (t ++ [d]) _ (fun e he => hall e (List.mem_cons_of_mem d he)) hp.2
    · rw [if_neg hc]
      obtain ⟨t2, gs, hshape⟩ := groupGo_shape rest d [] d.end_
      rw [hshape, List.map_cons, List.map_cons]
      have hrec := IH d [] d.end_ hp.1 hp.2
      rw [hshape, List.map_cons] at hrec
      exact List.Chain'.cons (by simpa using hhd) hrec

theorem group_join_eq (ds : List Domain) :
    (group_overlapping_hits ds).flatten
      = sortBy (fun y x => decide (y.start < x.start)) ds := by
  unfold group_overlapping_hits
  cases hs : sortBy (fun y x => decide (y.start < x.start)) ds with
  | nil => simp
  | cons f rest => simpa using groupGo_join rest [f] f.end_

theorem group_join_perm (ds : List Domain) :
    ((group_overlapping_hits ds).flatten).Perm ds := by
  rw [group_join_eq]
  exact sortBy_perm _ ds

theorem mem_of_mem_group {ds g : List Domain} {d : Domain}
    (hg : g ∈ group_overlapping_hits ds) (hd : d ∈ g) : d ∈ ds := by
  have hjoin : d ∈ (group_overlapping_hits ds).flatten := by
    rw [List.mem_flatten]
    exact ⟨g, hg, hd⟩
  exact (group_join_perm ds).mem_iff.mp hjoin

theorem group_ne_nil {ds : List Domain} :
    ∀ g ∈ group_overlapping_hits ds, g ≠ [] := by
  intro g hg
  unfold group_overlapping_hits at hg
  cases hs : sortBy (fun y x => decide (y.start < x.start)) ds with
  | nil => rw [hs] at hg; simp at hg
  | cons f rest =>
    rw [hs] at hg
    exact groupGo_ne_nil rest [f] f.end_ (by simp) g hg

theorem groups_ne_nil {ds : List Domain} (h : ds ≠ []) :
    group_overlapping_hits ds ≠ [] := by
  intro hnil
  have hperm := group_join_perm ds
  rw [hnil] at hperm
  simp only [List.flatten_nil] at hperm
  exact h hperm.symm.eq_nil

theorem group_heads_pairwise (ds : List Domain) :
    ((group_overlapping_hits ds).map (fun g => g.headI.start)).Pairwise (· ≤ ·) := by
  rw [← List.chain'_iff_pairwise]
  unfold group_overlapping_hits
  cases hs : sortBy (fun y x => decide (y.start < x.start)) ds with
  | nil => simp
  | cons f rest =>
    have hp := pairwise_start_sortBy ds
    rw [hs, List.pairwise_cons] at hp
    exact groupGo_chain rest f [] f.end_ hp.1 hp.2

end Synthaser

namespace Synthaser

theorem headOrErr_ok {l : List Domain} {r : Domain} (h : headOrErr l = .ok r) : r ∈ l := by
  cases l with
  | nil => exact absurd h (by simp [headOrErr])
  | cons d rest =>
    simp only [headOrErr, Except.ok.injEq] at h
    exact h ▸ List.mem_cons_self d rest

theorem headOrErr_head? {l : List Domain} {r : Domain} (h : headOrErr l = .ok r) :
    l.head? = some r := by
  cases l with
  | nil => exact absurd h (by simp [headOrErr])
  | cons d rest =>
    simp only [headOrErr, Except.ok.injEq] at h
    simp [h]

theorem headOrErr_ok_of_ne_nil {l : List Domain} (h : l ≠ []) :
    ∃ r, headOrErr l = .ok r := by
  cases l with
  | nil => exact absurd rfl h
  | cons d rest => exact ⟨d, rfl⟩

theorem mapExcept_ok_mem {f : α → Except String β} :
    ∀ {l : List α} {l2 : List β}, mapExcept f l = .ok l2 →
      ∀ b ∈ l2, ∃ a ∈ l, f a = .ok b := by
  intro l
  induction l with
  | nil =>
    intro l2 h b hb
    simp only [mapExcept, Except.ok.injEq] at h
    rw [← h] at hb
    exact absurd hb (by simp)
  | cons a as IH =>
    intro l2 h b hb
    simp only [mapExcept] at h
    cases hfa : f a with
    | error e => rw [hfa] at h; exact absurd h (by simp)
    | ok b0 =>
      rw [hfa] at h
      cases hrec : mapExcept f as with
      | error e => rw [hrec] at h; exact absurd h (by simp)
      | ok bs =>
        rw [hrec] at h
        simp only [Except.ok.injEq] at h
        rw [← h] at hb
        rcases List.mem_cons.mp hb with rfl | hb'
        · exact ⟨a, List.mem_cons_self a as, hfa⟩
        · obtain ⟨a2, ha2, hfa2⟩ := IH hrec b hb'
          exact ⟨a2, List.mem_cons_of_mem a ha2, hfa2⟩

theorem mapExcept_ok_of_forall {f : α → Except String β} :
    ∀ {l : List α}, (∀ a ∈ l, ∃ b, f a = .ok b) → ∃ l2, mapExcept f l = .ok l2 := by
  intro l
  induction l with
  | nil => intro _; exact ⟨[], rfl⟩
  | cons a as IH =>
    intro h
    obtain ⟨b, hb⟩ := h a (List.mem_cons_self a as)
    obtain ⟨bs, hbs⟩ := IH (fun a2 ha2 => h a2 (List.mem_cons_of_mem a ha2))
    exact ⟨b :: bs, by simp [mapExcept, hb, hbs]⟩

theorem mapExcept_error_head {f : α → Except String β} {a : α} {as : List α} {e : String}
    (h : f a = .error e) : mapExcept f (a :: as) = .error e := by
  simp [mapExcept, h]

theorem choose_mem {reg : Registry} {g : List Domain} {by_ : String} {r : Domain}
    (h : choose_representative_domain reg g by_ = .ok r) : r ∈ g := by
  unfold choose_representative_domain at h
  by_cases h1 : by_ = "bitscore"
  · rw [if_pos h1] at h
    cases hm : mapExcept (normBitscore reg) g with
    | error e => rw [hm] at h; exact absurd h (by simp)
    | ok qs =>
      rw [hm] at h
      exact mem_sortBy.mp (headOrErr_ok h)
  · rw [if_neg h1] at h
    by_cases h2 : by_ = "evalue"
    · rw [if_pos h2] at h
      exact mem_sortBy.mp (headOrErr_ok h)
    · rw [if_neg h2] at h
      by_cases h3 : by_ = "length"
      · rw [if_pos h3] at h
        exact mem_sortBy.mp (headOrErr_ok h)
      · rw [if_neg h3] at h
        exact absurd h (by simp)

theorem choose_evalue {reg : Registry} {g : List Domain} (hne : g ≠ []) :
    ∃ r, choose_representative_domain reg g "evalue" = .ok r ∧
      isFirstMin (fun d => d.evalue) g r := by
  obtain ⟨r, hr⟩ := headOrErr_ok_of_ne_nil
    (@sortBy_ne_nil (fun y x => decide (y.evalue < x.evalue)) g hne)
  refine ⟨r, ?_, ?_⟩
  · unfold choose_representative_domain
    simp only [String.reduceEq, reduceIte]
    exact hr
  · apply bestOf_spec_asc
    rw [← sortBy_head?_eq_bestOf]
    exact headOrErr_head? hr

theorem choose_length {reg : Registry} {g : List Domain} (hne : g ≠ []) :
    ∃ r, choose_representative_domain reg g "length" = .ok r ∧
      isFirstMax (fun d => d.end_ - d.start) g r := by
  obtain ⟨r, hr⟩ := headOrErr_ok_of_ne_nil
    (@sortBy_ne_nil (fun y x => decide (x.end_ - x.start < y.end_ - y.start)) g hne)
  refine ⟨r, ?_, ?_⟩
  · unfold choose_representative_domain
    simp only [String.reduceEq, reduceIte]
    exact hr
  · apply bestOf_spec_desc
    rw [← sortBy_head?_eq_bestOf]
    exact headOrErr_head? hr

theorem choose_bitscore {reg : Registry} {g : List Domain} (hne : g ≠ [])
    (hkeys : ∀ d ∈ g, (regFind reg d.domain).isSome = true) :
    ∃ r, choose_representative_domain reg g "bitscore" = .ok r ∧
      isFirstMax (bitKey reg) g r := by
  have hmap : ∃ qs, mapExcept (normBitscore reg) g = .ok qs := by
    apply mapExcept_ok_of_forall
    intro d hd
    have := hkeys d hd
    unfold normBitscore
    cases hf : regFind reg d.domain with
    | none => rw [hf] at this; simp at this
    | some e => exact ⟨d.bitscore / e.bitscore, rfl⟩
  obtain ⟨qs, hqs⟩ := hmap
  obtain ⟨r, hr⟩ := headOrErr_ok_of_ne_nil
    (@sortBy_ne_nil (fun y x => decide (bitKey reg x < bitKey reg y)) g hne)
  refine ⟨r, ?_, ?_⟩
  · unfold choose_representative_domain
    simp only [String.reduceEq, reduceIte, hqs]
    exact hr
  · apply bestOf_spec_desc
    rw [← sortBy_head?_eq_bestOf]
    exact headOrErr_head? hr

theorem choose_bad_metric {reg : Registry} {g : List Domain} {by_ : String}
    (h1 : by_ ≠ "bitscore") (h2 : by_ ≠ "evalue") (h3 : by_ ≠ "length") :
    choose_representative_domain reg g by_
      = .error ("ValueError: expected bitscore, evalue or length") := by
  unfold choose_representative_domain
  rw [if_neg h1, if_neg h2, if_neg h3]

end Synthaser

namespace Synthaser

theorem slice_facts {ds : List Domain} {i : Nat} {p c : Domain}
    (hs : (ds.drop (i - 1)).take 2 = [p, c]) : p ∈ ds ∧ c ∈ ds ∧ i < ds.length := by
  have hp : p ∈ (ds.drop (i - 1)).take 2 := by rw [hs]; simp
  have hc : c ∈ (ds.drop (i - 1)).take 2 := by rw [hs]; simp
  have hlen : ((ds.drop (i - 1)).take 2).length = 2 := by rw [hs]; rfl
  rw [List.length_take, List.length_drop] at hlen
  exact ⟨List.drop_subset _ _ (List.take_subset _ _ hp),
    List.drop_subset _ _ (List.take_subset _ _ hc), by omega⟩

theorem scanGo_break (reg : Registry) (cov tol : Rat) (fuel total i : Nat)
    (ds : List Domain) (h : i + 1 = total) :
    scanGo reg cov tol fuel total i ds = .ok ds := by
  cases fuel with
  | zero => rfl
  | succ n =>
    simp only [scanGo]
    rw [if_pos (show i < total by omega), if_pos h]

theorem scanGo_preserve {reg : Registry} {cov tol : Rat} (P : Domain → Prop)
    (hP : ∀ p c : Domain, P p → P { p with end_ := c.end_ }) :
    ∀ (fuel total i : Nat) (ds out : List Domain),
      (∀ d ∈ ds, P d) → scanGo reg cov tol fuel total i ds = .ok out →
      ∀ d ∈ out, P d := by
  intro fuel
  induction fuel with
  | zero =>
    intro total i ds out hds h
    simp only [scanGo, Except.ok.injEq] at h
    exact h ▸ hds
  | succ fuel IH =>
    intro total i ds out hds h
    simp only [scanGo] at h
    split at h
    case isFalse => simp only [Except.ok.injEq] at h; exact h ▸ hds
    split at h
    case isTrue => simp only [Except.ok.injEq] at h; exact h ▸ hds
    split at h
    case h_2 => exact absurd h (by simp)
    next p c hs =>
      split at h
      case isFalse => exact IH total (i + 1) ds out hds h
      split at h
      case h_1 => exact absurd h (by simp)
      case h_3 => exact IH total (i + 1) ds out hds h
      case h_2 =>
        apply IH total i _ out _ h
        intro d hd
        have hd2 : d ∈ ds.set (i - 1) { p with end_ := c.end_ } :=
          List.mem_of_mem_eraseIdx hd
        rcases List.mem_or_eq_of_mem_set hd2 with hmem | rfl
        · exact hds d hmem
        · exact hP p c (hds p (slice_facts hs).1)

/-- One unfolding step of `scanGo` at positive fuel, stated as an equation
usable for rewriting without unfolding the recursive occurrences. -/
theorem scanGo_succ_eq (reg : Registry) (cov tol : Rat) (fuel total i : Nat)
    (ds : List Domain) :
    scanGo reg cov tol (fuel + 1) total i ds =
      if i < total then
        if i + 1 = total then .ok ds
        else
          match (ds.drop (i - 1)).take 2 with
          | [p, c] =>
            if p.type = c.type then
              match is_fragmented_domain reg p c cov tol with
              | .error e => .error e
              | .ok true =>
                scanGo reg cov tol fuel total i
                  ((ds.set (i - 1) { p with end_ := c.end_ }).eraseIdx i)
              | .ok false => scanGo reg cov tol fuel total (i + 1) ds
            else scanGo reg cov tol fuel total (i + 1) ds
          | _ => .error ("ValueError: not enough values to unpack")
      else .ok ds := rfl

theorem scanGo_fuel_succ {reg : Registry} {cov tol : Rat} :
    ∀ (fuel total i : Nat) (ds : List Domain), (total - i) + ds.length ≤ fuel →
      scanGo reg cov tol (fuel + 1) total i ds = scanGo reg cov tol fuel total i ds := by
  intro fuel
  induction fuel with
  | zero =>
    intro total i ds hm
    have h1 : ¬ i < total := by omega
    rw [scanGo_succ_eq, if_neg h1]
    rfl
  | succ fuel IH =>
    intro total i ds hm
    conv_lhs => rw [scanGo_succ_eq]
    conv_rhs => rw [scanGo_succ_eq]
    by_cases h1 : i < total
    case neg => simp only [if_neg h1]
    by_cases h2 : i + 1 = total
    · simp only [if_pos h1, if_pos h2]
    · simp only [if_pos h1, if_neg h2]
      split
      next p c hs =>
        have hi : i < ds.length := (slice_facts hs).2.2
        split
        next hpt =>
          split
          next e he => rfl
          next he =>
            apply IH total i
            have hset : (ds.set (i - 1) { p with end_ := c.end_ }).length = ds.length := by
              simp
            have herase : ((ds.set (i - 1) { p with end_ := c.end_ }).eraseIdx i).length
                = ds.length - 1 := by
              rw [List.length_eraseIdx, hset, if_pos hi]
            rw [herase]
            omega
          next he => exact IH total (i + 1) ds (by omega)
        next hpt => exact IH total (i + 1) ds (by omega)
      next => rfl

end Synthaser

namespace Synthaser

/-- Agreement on every `Domain` field except possibly `end_`. -/
def eqExceptEnd (a b : Domain) : Prop :=
  a.pssm = b.pssm ∧ a.type = b.type ∧ a.domain = b.domain ∧ a.start = b.start ∧
  a.evalue = b.evalue ∧ a.bitscore = b.bitscore ∧ a.part = b.part ∧
  a.accession = b.accession ∧ a.superfamily = b.superfamily

theorem eqExceptEnd_refl (a : Domain) : eqExceptEnd a a := by
  unfold eqExceptEnd
  exact ⟨rfl, rfl, rfl, rfl, rfl, rfl, rfl, rfl, rfl⟩

theorem eqExceptEnd_merge {a p : Domain} (c : Domain) (h : eqExceptEnd a p) :
    eqExceptEnd a { p with end_ := c.end_ } := h

theorem filter_domains_nil (reg : Registry) (by_ : String) (cov tol : Rat) :
    filter_domains reg [] by_ cov tol = .ok [] := rfl

theorem filter_domains_frame {reg : Registry} {ds : List Domain} {by_ : String}
    {cov tol : Rat} {out : List Domain}
    (h : filter_domains reg ds by_ cov tol = .ok out) :
    ∀ d ∈ out, ∃ d0 ∈ ds, eqExceptEnd d0 d := by
  unfold filter_domains at h
  cases hm : mapExcept (fun g => choose_representative_domain reg g by_)
      (group_overlapping_hits ds) with
  | error e => rw [hm] at h; exact absurd h (by simp)
  | ok reps =>
    rw [hm] at h
    intro d hd
    refine scanGo_preserve (fun d => ∃ d0 ∈ ds, eqExceptEnd d0 d) ?_ _ _ _ _ _ ?_ h d hd
    · rintro p c ⟨d0, hd0, he⟩
      exact ⟨d0, hd0, eqExceptEnd_merge c he⟩
    · intro r hr
      obtain ⟨g, hg, hchoose⟩ := mapExcept_ok_mem hm r hr
      exact ⟨r, mem_of_mem_group hg (choose_mem hchoose), eqExceptEnd_refl r⟩

theorem filter_domains_bad_metric {reg : Registry} {ds : List Domain} {by_ : String}
    {cov tol : Rat} (hne : ds ≠ []) (h1 : by_ ≠ "bitscore") (h2 : by_ ≠ "evalue")
    (h3 : by_ ≠ "length") :
    filter_domains reg ds by_ cov tol
      = .error ("ValueError: expected bitscore, evalue or length") := by
  unfold filter_domains
  cases hg : group_overlapping_hits ds with
  | nil => exact absurd hg (groups_ne_nil hne)
  | cons g gs =>
    have herr : mapExcept (fun g => choose_representative_domain reg g by_) (g :: gs)
        = .error ("ValueError: expected bitscore, evalue or length") :=
      mapExcept_error_head (choose_bad_metric h1 h2 h3)
    rw [herr]

theorem filter_results_ok {reg : Registry} {by_ : String} {cov tol : Rat} :
    ∀ {res out : List (String × List Domain)},
      filter_results reg by_ cov tol res = .ok out →
      (out.map Prod.fst = res.map Prod.fst) ∧
      (∀ p ∈ res, p.2 = [] → (p.1, ([] : List Domain)) ∈ out) := by
  intro res
  induction res with
  | nil =>
    intro out h
    simp only [filter_results, Except.ok.injEq] at h
    rw [← h]
    exact ⟨rfl, by simp⟩
  | cons entry rest IH =>
    intro out h
    obtain ⟨name, ds⟩ := entry
    simp only [filter_results] at h
    cases hfd : filter_domains reg ds by_ cov tol with
    | error e => rw [hfd] at h; exact absurd h (by simp)
    | ok ds2 =>
      rw [hfd] at h
      cases hrec : filter_results reg by_ cov tol rest with
      | error e => rw [hrec] at h; exact absurd h (by simp)
      | ok rest2 =>
        rw [hrec] at h
        simp only [Except.ok.injEq] at h
        obtain ⟨hkeys, hmem⟩ := IH hrec
        rw [← h]
        constructor
        · simp [hkeys]
        · intro p hp hpe
          rcases List.mem_cons.mp hp with rfl | hp'
          · have : ds = [] := hpe
            rw [this, filter_domains_nil] at hfd
            have : ds2 = [] := by injection hfd with h2; exact h2.symm
            rw [this] at *
            exact List.mem_cons_self _ _
          · exact List.mem_cons_of_mem _ (hmem p hp' hpe)

theorem filter_results_forall₂ {reg : Registry} {by_ : String} {cov tol : Rat} :
    ∀ {res out : List (String × List Domain)},
      filter_results reg by_ cov tol res = .ok out →
      List.Forall₂ (fun p q => p.1 = q.1 ∧ filter_domains reg p.2 by_ cov tol = .ok q.2)
        res out := by
  intro res
  induction res with
  | nil =>
    intro out h
    simp only [filter_results, Except.ok.injEq] at h
    rw [← h]
    exact List.Forall₂.nil
  | cons entry rest IH =>
    intro out h
    obtain ⟨name, ds⟩ := entry
    simp only [filter_results] at h
    cases hfd : filter_domains reg ds by_ cov tol with
    | error e => rw [hfd] at h; exact absurd h (by simp)
    | ok ds2 =>
      rw [hfd] at h
      cases hrec : filter_results reg by_ cov tol rest with
      | error e => rw [hrec] at h; exact absurd h (by simp)
      | ok rest2 =>
        rw [hrec] at h
        simp only [Except.ok.injEq] at h
        rw [← h]
        exact List.Forall₂.cons ⟨rfl, hfd⟩ (IH hrec)

theorem is_frag_type_error {reg : Registry} {one two : Domain} {cov tol : Rat}
    (h : one.type ≠ two.type) :
    is_fragmented_domain reg one two cov tol
      = .error ("ValueError: Expected Domain instances of same type") := by
  unfold is_fragmented_domain
  rw [if_pos h]

theorem is_frag_true_elim {reg : Registry} {a b : Domain} {cov tol : Rat}
    (h : is_fragmented_domain reg a b cov tol = .ok true) :
    a.type = b.type ∧ ∃ entry, regFind reg a.domain = some entry ∧
      ((a.length : Rat) < (entry.length : Rat) * cov ∧
       (b.length : Rat) < (entry.length : Rat) * cov ∧
       (entry.length : Rat) - (entry.length : Rat) * tol ≤ (b.end_ : Rat) - (a.start : Rat) ∧
       (b.end_ : Rat) - (a.start : Rat) ≤ (entry.length : Rat) + (entry.length : Rat) * tol ∧
       (entry.length : Rat) * cov < (a.length : Rat) + (b.length : Rat)) := by
  unfold is_fragmented_domain at h
  by_cases ht : a.type ≠ b.type
  · rw [if_pos ht] at h; exact absurd h (by simp)
  · rw [if_neg ht] at h
    refine ⟨not_not.mp ht, ?_⟩
    cases hreg : regFind reg a.domain with
    | none => rw [hreg] at h; exact absurd h (by simp)
    | some entry =>
      rw [hreg] at h
      simp only [Except.ok.injEq, Bool.and_eq_true, decide_eq_true_eq] at h
      obtain ⟨⟨⟨⟨h1, h2⟩, h3⟩, h4⟩, h5⟩ := h
      exact ⟨entry, rfl, h1, h2, h3, h4, by exact_mod_cast h5⟩

/-- A hit produced by merging a fragmented pair spans at least
`canonicalLength * (1 - tolerancePct)`; whenever
`coveragePct ≤ 1 - tolerancePct` that is at least the coverage cutoff, so
the merged hit can never again satisfy the first truncation clause of the
fragmentation test. -/
theorem merged_not_fragmented {reg : Registry} {a b c : Domain} {cov tol : Rat}
    (hcov : cov ≤ 1 - tol)
    (hfr : is_fragmented_domain reg a b cov tol = .ok true)
    (hct : a.type = c.type) :
    is_fragmented_domain reg { a with end_ := b.end_ } c cov tol = .ok false := by
  obtain ⟨htype, entry, hreg, h1, h2, h3, h4, h5⟩ := is_frag_true_elim hfr
  unfold is_fragmented_domain
  rw [if_neg (show ¬ ({ a with end_ := b.end_ } : Domain).type ≠ c.type by simpa using hct)]
  have hmd : regFind reg ({ a with end_ := b.end_ } : Domain).domain = some entry := hreg
  have hL0 : (0 : Rat) ≤ (entry.length : Rat) := by positivity
  have hlen : ((({ a with end_ := b.end_ } : Domain).length : Rat))
      = (b.end_ : Rat) - (a.start : Rat) := by
    simp only [Domain.length]
    push_cast
    ring
  have hnot : ¬ ((({ a with end_ := b.end_ } : Domain).length : Rat)
      < (entry.length : Rat) * cov) := by
    rw [hlen]
    have hmul : (entry.length : Rat) * cov ≤ (entry.length : Rat) * (1 - tol) :=
      mul_le_mul_of_nonneg_left hcov hL0
    have hring : (entry.length : Rat) * (1 - tol)
        = (entry.length : Rat) - (entry.length : Rat) * tol := by ring
    linarith
  simp only [hmd]
  rw [decide_eq_false hnot]
  simp

end Synthaser

namespace Synthaser

/-- A one-entry registry: domain name `X` of type (category) `C`, canonical
PSSM length 1000, bitscore threshold 30.  Used by all concrete instances
below. -/
def regX : Registry := [("X", ⟨"C", 1000, 30⟩)]

/-- A type-`C` hit of registry domain `X` with the given coordinates and
e-value; the remaining fields are fixed arbitrary values. -/
def mkD (s e : Int) (ev : Rat) : Domain :=
  ⟨"p", "C", "X", s, e, ev, 30, "-", "acc", "sf"⟩

/-- A hit of a different type (category) `KS`, for type-mismatch cases. -/
def dKS : Domain := ⟨"p", "KS", "X", 0, 10, 1, 30, "-", "acc", "sf"⟩

/-- C1 concrete pair: lengths 400 and 450, combined span 980. -/
def dOne : Domain := mkD 0 400 1

/-- Second C1 hit: `dTwo.end_ - dOne.start = 980`. -/
def dTwo : Domain := mkD 530 980 1

/-- First of three hits forming a pairwise-fragmented run under the default
parameters: spans 0-450, 441-901, 892-1341 fall in three distinct overlap
groups (gap -9 fails the `start + 10 ≤ border` test) and each adjacent pair
satisfies the fragmentation test with canonical length 1000. -/
def dF0 : Domain := mkD 0 450 1

def dF1 : Domain := mkD 441 901 1

def dF2 : Domain := mkD 892 1341 1

/-- First of three hits that let the scan delete twice (with
`coverage_pct = 1`, `tolerance_pct = 3/4`): merging 0-504 with 495-995
leaves a 995-long hit that is still fragmented against 986-1586. -/
def dG0 : Domain := mkD 0 504 1

def dG1 : Domain := mkD 495 995 1

def dG2 : Domain := mkD 986 1586 1

/-- The spec section 8 grouping scenario: A(10,100), B(95,200), C(500,600). -/
def dA : Domain := mkD 10 100 1

def dB : Domain := mkD 95 200 1

def dC : Domain := mkD 500 600 1

/-- Hits with e-values 1e-5, 1e-10 and 1e-3 for the selection scenario. -/
def dE1 : Domain := mkD 0 10 (1/100000)

def dE2 : Domain := mkD 20 30 (1/10000000000)

def dE3 : Domain := mkD 40 50 (1/1000)

theorem frag_dOne_dTwo :
    is_fragmented_domain regX dOne dTwo (1/2) (1/10) = .ok true := by
  simp only [is_fragmented_domain, regFind, regX, mkD, dOne, dTwo, Domain.length]
  norm_num

theorem frag_dF0_dF1 :
    is_fragmented_domain regX dF0 dF1 (1/2) (1/10) = .ok true := by
  simp only [is_fragmented_domain, regFind, regX, mkD, dF0, dF1, Domain.length]
  norm_num

theorem frag_dF1_dF2 :
    is_fragmented_domain regX dF1 dF2 (1/2) (1/10) = .ok true := by
  simp only [is_fragmented_domain, regFind, regX, mkD, dF1, dF2, Domain.length]
  norm_num

theorem frag_dG0_dG1 :
    is_fragmented_domain regX dG0 dG1 1 (3/4) = .ok true := by
  simp only [is_fragmented_domain, regFind, regX, mkD, dG0, dG1, Domain.length]
  norm_num

theorem frag_dG1_dG2 :
    is_fragmented_domain regX dG1 dG2 1 (3/4) = .ok true := by
  simp only [is_fragmented_domain, regFind, regX, mkD, dG1, dG2, Domain.length]
  norm_num

theorem half_le_one_sub_tenth : (1 : Rat)/2 ≤ 1 - 1/10 := by norm_num

end Synthaser

namespace Synthaser

/-- C1: for the two same-category hits `dOne` (0-400) and `dTwo` (530-980)
of a domain with canonical PSSM length 1000, with coveragePct 1/2 and
tolerancePct 1/10, the pairwise test `is_fragmented_domain` does return
true (980 lies in [900, 1100], both lengths are below 500 and their sum
850 exceeds 500); but running `filter_domains` on the two-hit sequence
returns it unchanged instead of one merged hit spanning 0-980, because the
scan breaks as soon as `i + 1` equals the hit count and therefore never
tests the final pair.  This contradicts the claimed merge, supporting the
code_bug verdict for the claim. -/
theorem claim_C1_two_hit_sequence_not_merged :
    is_fragmented_domain regX dOne dTwo (1/2) (1/10) = .ok true ∧
    filter_domains regX [dOne, dTwo] ("evalue") (1/2) (1/10) = .ok [dOne, dTwo] :=
  ⟨frag_dOne_dTwo, rfl⟩

/-- C2 counterexample: `dF0`, `dF1`, `dF2` are three consecutive
same-category hits, pairwise fragmented under the default parameters (each
pair satisfies `is_fragmented_domain`), yet the scan returns TWO hits - the
merged first pair (0-901) and the untouched `dF2` - not one hit spanning
the whole run, refuting the claimed unbounded transitive collapse. -/
theorem claim_C2_counterexample :
    is_fragmented_domain regX dF0 dF1 (1/2) (1/10) = .ok true ∧
    is_fragmented_domain regX dF1 dF2 (1/2) (1/10) = .ok true ∧
    dF0.type = dF1.type ∧ dF1.type = dF2.type ∧
    filter_domains regX [dF0, dF1, dF2] ("evalue") (1/2) (1/10)
      = .ok [mkD 0 901 1, dF2] := by
  refine ⟨frag_dF0_dF1, frag_dF1_dF2, rfl, rfl, ?_⟩
  simp [filter_domains, group_overlapping_hits, sortBy, insertBy, groupGo, mapExcept,
    choose_representative_domain, headOrErr, scanGo, is_fragmented_domain, regFind, regX,
    mkD, dF0, dF1, dF2, Domain.length]
  norm_num

/-- C2 amended: the scan does merge a fragmented pair in place (extending
`prev.end`, deleting `curr`, re-testing without advancing), but a merged
hit spans at least `canonicalLength * (1 - tolerancePct)`, so whenever
`coveragePct ≤ 1 - tolerancePct` (the defaults included) the re-test fails
the coverage clause: a run of three or more pairwise-fragmented hits
collapses only at its first mergeable pair, not transitively into one hit;
and when two or more deletions do occur the scan raises ValueError instead
of returning (see the C3 theorem). -/
theorem claim_C2_merge_scan :
    (∀ (reg : Registry) (cov tol : Rat) (a b c : Domain),
      cov ≤ 1 - tol →
      is_fragmented_domain reg a b cov tol = .ok true →
      a.type = c.type →
      is_fragmented_domain reg { a with end_ := b.end_ } c cov tol = .ok false) ∧
    is_fragmented_domain regX (mkD 0 901 1) dF2 (1/2) (1/10) = .ok false := by
  refine ⟨fun reg cov tol a b c hcov hfr hct => merged_not_fragmented hcov hfr hct, ?_⟩
  simp only [is_fragmented_domain, regFind, regX, mkD, dF2, Domain.length]
  norm_num

/-- C2 witness: the amended general statement applied to the concrete
fragmented pair `dF0`, `dF1` and next neighbour `dF2` under the default
parameters. -/
theorem claim_C2_witness :
    is_fragmented_domain regX { dF0 with end_ := dF1.end_ } dF2 (1/2) (1/10)
      = .ok false :=
  claim_C2_merge_scan.1 regX (1/2) (1/10) dF0 dF1 dF2 half_le_one_sub_tenth
    frag_dF0_dF1 rfl

/-- C3: a three-hit pairwise-fragmented run on which the scan deletes twice
(`coverage_pct = 1`, `tolerance_pct = 3/4`, both inside the documented
parameter domains) makes `filter_domains` raise the ValueError from
unpacking a short slice: `total` is frozen before the loop, so after two
deletions the slice `domains[i-1:i+1]` holds a single element. -/
theorem claim_C3_double_deletion_value_error :
    is_fragmented_domain regX dG0 dG1 1 (3/4) = .ok true ∧
    is_fragmented_domain regX dG1 dG2 1 (3/4) = .ok true ∧
    dG0.type = dG1.type ∧ dG1.type = dG2.type ∧
    filter_domains regX [dG0, dG1, dG2] ("evalue") 1 (3/4)
      = .error ("ValueError: not enough values to unpack") := by
  refine ⟨frag_dG0_dG1, frag_dG1_dG2, rfl, rfl, ?_⟩
  simp [filter_domains, group_overlapping_hits, sortBy, insertBy, groupGo, mapExcept,
    choose_representative_domain, headOrErr, scanGo, is_fragmented_domain, regFind, regX,
    mkD, dG0, dG1, dG2, Domain.length]
  norm_num

/-- C4: for every input, the clusters of `group_overlapping_hits` flatten
to a permutation of the input (each hit lands in exactly one cluster,
multiset-exactly), no produced cluster is empty, the clusters come in
ascending order of their first member's `start`, and empty input yields no
clusters. -/
theorem claim_C4_grouping_partition :
    (∀ ds : List Domain,
      ((group_overlapping_hits ds).flatten).Perm ds ∧
      (∀ g ∈ group_overlapping_hits ds, g ≠ []) ∧
      ((group_overlapping_hits ds).map (fun g => g.headI.start)).Pairwise (· ≤ ·)) ∧
    group_overlapping_hits [] = [] :=
  ⟨fun ds => ⟨group_join_perm ds, group_ne_nil, group_heads_pairwise ds⟩, rfl⟩

/-- C4 witness: the partition statement instantiated on the three concrete
spec hits. -/
theorem claim_C4_witness :
    ((group_overlapping_hits [dA, dB, dC]).flatten).Perm [dA, dB, dC] ∧
    group_overlapping_hits [] = [] :=
  ⟨(claim_C4_grouping_partition.1 [dA, dB, dC]).1, claim_C4_grouping_partition.2⟩

/-- C5: after sorting by start, a hit joins the current cluster exactly
when `hit.start + 10 ≤ border` (for a two-hit input the border is the
first hit's `end`); in particular A(10,100), B(95,200), C(500,600) yield
three singleton clusters, because 95 + 10 ≤ 100 fails. -/
theorem claim_C5_boundary :
    (∀ a b : Domain, a.start ≤ b.start →
      group_overlapping_hits [a, b]
        = if b.start + 10 ≤ a.end_ then [[a, b]] else [[a], [b]]) ∧
    group_overlapping_hits [dA, dB, dC] = [[dA], [dB], [dC]] := by
  constructor
  · intro a b h
    have hlt : decide (b.start < a.start) = false := by
      simp [not_lt.mpr h]
    by_cases hc : b.start + 10 ≤ a.end_
    · simp [group_overlapping_hits, sortBy, insertBy, groupGo, hlt, hc]
    · simp [group_overlapping_hits, sortBy, insertBy, groupGo, hlt, hc]
  · rfl

/-- C5 witness: the join rule applied to the concrete hits A and B. -/
theorem claim_C5_witness :
    group_overlapping_hits [dA, dB]
      = if dB.start + 10 ≤ dA.end_ then [[dA, dB]] else [[dA], [dB]] :=
  claim_C5_boundary.1 dA dB (by decide)

/-- C6: for every non-empty cluster, selecting by `evalue` returns the
earliest hit with the smallest e-value; by `bitscore` (when every hit's
domain is in the registry) the earliest hit with the largest
`bitscore / threshold`; by `length` the earliest hit with the largest
`end - start`; ties always resolve to the earliest occurrence.  The
concrete e-value cluster [1e-5, 1e-10, 1e-3] yields the 1e-10 hit. -/
theorem claim_C6_representative_selection :
    (∀ (reg : Registry) (g : List Domain), g ≠ [] →
      (∃ r, choose_representative_domain reg g ("evalue") = .ok r ∧
        isFirstMin (fun d => d.evalue) g r) ∧
      ((∀ d ∈ g, (regFind reg d.domain).isSome = true) →
        ∃ r, choose_representative_domain reg g ("bitscore") = .ok r ∧
          isFirstMax (bitKey reg) g r) ∧
      (∃ r, choose_representative_domain reg g ("length") = .ok r ∧
        isFirstMax (fun d => d.end_ - d.start) g r)) ∧
    choose_representative_domain regX [dE1, dE2, dE3] ("evalue") = .ok dE2 := by
  constructor
  · intro reg g hne
    exact ⟨choose_evalue hne, fun hk => choose_bitscore hne hk, choose_length hne⟩
  · simp only [choose_representative_domain, String.reduceEq, reduceIte]
    norm_num [sortBy, insertBy, headOrErr, dE1, dE2, dE3, mkD, decide_eq_true_eq]

/-- C6 witness: the e-value selection property instantiated on the
concrete cluster, identifying the returned hit as the 1e-10 one. -/
theorem claim_C6_witness :
    isFirstMin (fun d => d.evalue) [dE1, dE2, dE3] dE2 := by
  obtain ⟨r, hr, hmin⟩ :=
    (claim_C6_representative_selection.1 regX [dE1, dE2, dE3] (by simp)).1
  have h2 := claim_C6_representative_selection.2
  rw [hr] at h2
  injection h2 with h3
  exact h3 ▸ hmin

/-- C7: whenever `filter_results` returns, the output has exactly the
input's keys in order (no query is ever dropped), and a query whose hit
sequence is empty comes back mapped to the empty sequence. -/
theorem claim_C7_empty_query_retained :
    ∀ (reg : Registry) (by_ : String) (cov tol : Rat)
      (res out : List (String × List Domain)),
      filter_results reg by_ cov tol res = .ok out →
      (out.map Prod.fst = res.map Prod.fst) ∧
      (∀ p ∈ res, p.2 = [] → (p.1, ([] : List Domain)) ∈ out) :=
  fun _ _ _ _ _ _ h => filter_results_ok h

/-- C7 witness: a result set with one hitless query keeps its key, mapped
to the empty sequence. -/
theorem claim_C7_witness :
    (("q", ([] : List Domain)) ∈ [(("q" : String), ([] : List Domain))]) :=
  (claim_C7_empty_query_retained regX ("evalue") (1/2) (1/10)
    [(("q" : String), [])] [(("q" : String), [])] rfl).2 ("q", []) (by simp) rfl

/-- C8: an unsupported metric makes `choose_representative_domain` raise
ValueError for every group (the check precedes any use of the hits); a
category mismatch makes `is_fragmented_domain` raise ValueError before any
length or span computation (even before the registry lookup); and the
metric error propagates out of `filter_domains` for every non-empty input
rather than being swallowed. -/
theorem claim_C8_invalid_argument_errors :
    (∀ (reg : Registry) (g : List Domain) (by_ : String),
      by_ ≠ "bitscore" → by_ ≠ "evalue" → by_ ≠ "length" →
      choose_representative_domain reg g by_
        = .error ("ValueError: expected bitscore, evalue or length")) ∧
    (∀ (reg : Registry) (one two : Domain) (cov tol : Rat), one.type ≠ two.type →
      is_fragmented_domain reg one two cov tol
        = .error ("ValueError: Expected Domain instances of same type")) ∧
    (∀ (reg : Registry) (ds : List Domain) (by_ : String) (cov tol : Rat),
      ds ≠ [] → by_ ≠ "bitscore" → by_ ≠ "evalue" → by_ ≠ "length" →
      filter_domains reg ds by_ cov tol
        = .error ("ValueError: expected bitscore, evalue or length")) :=
  ⟨fun _ _ _ => choose_bad_metric,
   fun _ _ _ _ _ => is_frag_type_error,
   fun _ _ _ _ _ => filter_domains_bad_metric⟩

/-- C8 witness: the metric error on a concrete group with metric `foo`,
and the mismatch error on two concrete hits of types C and KS. -/
theorem claim_C8_witness :
    choose_representative_domain regX [dA] ("foo")
      = .error ("ValueError: expected bitscore, evalue or length") ∧
    is_fragmented_domain regX dOne dKS (1/2) (1/10)
      = .error ("ValueError: Expected Domain instances of same type") :=
  ⟨claim_C8_invalid_argument_errors.1 regX [dA] ("foo")
      (by decide) (by decide) (by decide),
   claim_C8_invalid_argument_errors.2.1 regX dOne dKS (1/2) (1/10) (by decide)⟩

/-- C9: grouping only redistributes the input hits (every member of every
cluster is an input hit, unchanged); selection returns a member of its
cluster unchanged; every hit produced by `filter_domains` agrees with some
input hit on every field except possibly `end_` (the merge extension being
the only mutation); and `filter_results` processes each query independently
against its own hit list.  The registry is a read-only parameter nothing
below ever produces a modified copy of. -/
theorem claim_C9_frame :
    (∀ ds : List Domain, ∀ g ∈ group_overlapping_hits ds, ∀ d ∈ g, d ∈ ds) ∧
    (∀ (reg : Registry) (g : List Domain) (by_ : String) (r : Domain),
      choose_representative_domain reg g by_ = .ok r → r ∈ g) ∧
    (∀ (reg : Registry) (ds : List Domain) (by_ : String) (cov tol : Rat)
        (out : List Domain), filter_domains reg ds by_ cov tol = .ok out →
      ∀ d ∈ out, ∃ d0 ∈ ds, eqExceptEnd d0 d) ∧
    (∀ (reg : Registry) (by_ : String) (cov tol : Rat)
        (res out : List (String × List Domain)),
      filter_results reg by_ cov tol res = .ok out →
      List.Forall₂ (fun p q => p.1 = q.1 ∧ filter_domains reg p.2 by_ cov tol = .ok q.2)
        res out) :=
  ⟨fun _ _ hg _ hd => mem_of_mem_group hg hd,
   fun _ _ _ _ h => choose_mem h,
   fun _ _ _ _ _ _ h => filter_domains_frame h,
   fun _ _ _ _ _ _ h => filter_results_forall₂ h⟩

/-- C9 witness: cluster members of a concrete grouping are input hits. -/
theorem claim_C9_witness : dA ∈ [dA, dB, dC] :=
  claim_C9_frame.1 [dA, dB, dC] [dA]
    (by rw [show group_overlapping_hits [dA, dB, dC] = [[dA], [dB], [dC]] from rfl]; simp)
    dA (by simp)

/-- C10: the scan returns its input unchanged the moment `i + 1` equals
the frozen total, for any fuel, so the final adjacent pair is never
tested; consequently a post-selection sequence of exactly two
representatives is always returned unchanged by `filter_domains`. -/
theorem claim_C10_last_pair_untested :
    (∀ (reg : Registry) (cov tol : Rat) (fuel total i : Nat) (ds : List Domain),
      i + 1 = total → scanGo reg cov tol fuel total i ds = .ok ds) ∧
    (∀ (reg : Registry) (ds : List Domain) (by_ : String) (cov tol : Rat)
        (reps : List Domain),
      mapExcept (fun g => choose_representative_domain reg g by_)
          (group_overlapping_hits ds) = .ok reps →
      reps.length = 2 →
      filter_domains reg ds by_ cov tol = .ok reps) := by
  constructor
  · exact fun reg cov tol fuel total i ds h => scanGo_break reg cov tol fuel total i ds h
  · intro reg ds by_ cov tol reps hmap hlen
    unfold filter_domains
    simp only [hmap]
    rw [hlen]
    exact scanGo_break reg cov tol (2 * 2 + 1) 2 1 reps rfl

/-- C10 witness: the two representatives `dOne`, `dTwo` (two singleton
overlap groups) pass through `filter_domains` unchanged. -/
theorem claim_C10_witness :
    mapExcept (fun g => choose_representative_domain regX g ("evalue"))
        (group_overlapping_hits [dOne, dTwo]) = .ok [dOne, dTwo] ∧
    filter_domains regX [dOne, dTwo] ("evalue") (1/2) (1/10) = .ok [dOne, dTwo] :=
  ⟨rfl, claim_C10_last_pair_untested.2 regX [dOne, dTwo] ("evalue") (1/2) (1/10)
    [dOne, dTwo] rfl rfl⟩

end Synthaser
